import Mathlib

/-
Verification of the FX dashboard backend's gap-filling time-series pipeline.

Shallow embedding conventions:
* Calendar dates are modelled as `Int` day numbers; `timedelta(days=1)` is `+ 1`,
  and comparison of Python `date` objects is the `Int` order.
* The rate store (the `exchange_rates` table) is a `List ExchangeRateRow`;
  Django querysets are modelled by `List.filter`, the `Min`/`Max` aggregates by
  `List.min?`/`List.max?`, and `order_by('date')` by a stable insertion sort.
* Python dicts are association lists with insertion-order semantics
  (`dictSet` replaces in place, appending new keys at the end, like CPython).
* An unspecified `end_date` request parameter (the empty string `''`) is
  `Option.none`; `datetime.now().date()` is an explicit `today : Int` argument,
  and `timezone.now()` an explicit `now : Int` argument.
* The upstream Frankfurter API is an oracle
  `api : String → Option String → Int × Int → Option chunk` giving, for a
  `base` parameter, an optional `symbols` parameter and a date range, either
  the returned `rates` payload or `none` for a `requests.RequestException`.
* The two `while` loops of `find_missing_date_ranges` are translated with an
  explicit fuel argument that is initialised to the exact iteration bound
  `(request_end + 1 - current).toNat`; the loop conditions themselves are kept
  verbatim, so fuel exhaustion never fires on aligned calls.
-/

/-! ## Python dict helpers -/

/-- `m[k] = v` on a Python dict: replace the value in place if the key is
present, otherwise append the new key at the end (CPython insertion order). -/
def dictSet {α β : Type} [DecidableEq α] (k : α) (v : β) : List (α × β) → List (α × β)
  | [] => [(k, v)]
  | (k2, v2) :: rest => if k2 = k then (k, v) :: rest else (k2, v2) :: dictSet k v rest

/-- `m.get(k, dflt)` on a Python dict. -/
def dictGetD {α β : Type} [DecidableEq α] (m : List (α × β)) (k : α) (dflt : β) : β :=
  match m.find? (fun p => decide (p.1 = k)) with
  | some p => p.2
  | none => dflt

/-! ## exchange/models.py -/

/-- One row of the `exchange_rates` table (`ExchangeRate` in `models.py`):
`base_currency`, `target_currency`, `rate` (a decimal), `date` (the rate
date), `timestamp` (data fetch time) and `source`. -/
structure ExchangeRateRow where
  base_currency : String
  target_currency : String
  rate : ℚ
  date : Int
  timestamp : Int
  source : String
deriving DecidableEq

/-- The `unique_together` key `(base_currency, target_currency, date)` of an
`ExchangeRate` row. -/
def rateKey (x : ExchangeRateRow) : String × String × Int :=
  (x.base_currency, x.target_currency, x.date)

/-- The `unique_together = ['base_currency', 'target_currency', 'date']`
invariant of `models.py`: no two rows share a key. -/
def KeyUnique (db : List ExchangeRateRow) : Prop :=
  (db.map rateKey).Pairwise (· ≠ ·)

/-! ## exchange/db_utils.py -/

/-- The queryset filter
`ExchangeRate.objects.filter(base_currency=b, target_currency=t, date=d)`. -/
def keyMatch (b t : String) (d : Int) (x : ExchangeRateRow) : Bool :=
  decide (x.base_currency = b ∧ x.target_currency = t ∧ x.date = d)

/-- `existing_rate.save()` after mutating the fetched row: update the first
row matching the predicate, in place.  (Under the `unique_together` constraint
at most one row can match, so which matching row Django's `.first()` picks is
immaterial.) -/
def updateFirst (p : ExchangeRateRow → Bool) (f : ExchangeRateRow → ExchangeRateRow) :
    List ExchangeRateRow → List ExchangeRateRow
  | [] => []
  | x :: xs => if p x then f x :: xs else x :: updateFirst p f xs

/-- `DatabaseManager.save_exchange_rate` (db_utils.py lines 13-45): if a row
with the key `(b, t, d)` exists, update its `rate`, `timestamp` and `source`
in place; otherwise create a new row.  `now` models `timezone.now()`. -/
def save_exchange_rate (db : List ExchangeRateRow) (b t : String) (r : ℚ) (d : Int)
    (src : String) (now : Int) : List ExchangeRateRow :=
  match db.find? (keyMatch b t d) with
  | some _ =>
    updateFirst (keyMatch b t d)
      (fun x => { x with rate := r, timestamp := now, source := src }) db
  | none => db ++ [⟨b, t, r, d, now, src⟩]

/-- Dates of the rows for a `(base_currency, target_currency)` pair, the
`target_query` of `database_covers_range` (no date restriction). -/
def pairDates (db : List ExchangeRateRow) (b t : String) : List Int :=
  (db.filter (fun x => decide (x.base_currency = b ∧ x.target_currency = t))).map
    (fun x => x.date)

/-- Dates of the rows for a base currency against any target, the `base_query`
of `database_covers_range`. -/
def baseDates (db : List ExchangeRateRow) (b : String) : List Int :=
  (db.filter (fun x => decide (x.base_currency = b))).map (fun x => x.date)

/-- `DatabaseManager.database_covers_range` (db_utils.py lines 62-96).
Python takes the non-empty-targets branch first (`if target_currencies:`);
the aggregate `(Min('date'), Max('date'))` is `(min?, max?)`, with `None`
(= `none`) when the pair has no rows.  `List.all` short-circuits exactly like
the early `return False`. -/
def database_covers_range (db : List ExchangeRateRow) (base_currency : String)
    (target_currencies : List String) (request_start request_end : Int) : Bool :=
  if target_currencies = [] then
    match (baseDates db base_currency).min?, (baseDates db base_currency).max? with
    | some min_date, some max_date =>
      decide (min_date ≤ request_start) && decide (max_date ≥ request_end)
    | _, _ => false
  else
    target_currencies.all fun t =>
      match (pairDates db base_currency t).min?, (pairDates db base_currency t).max? with
      | some min_date, some max_date =>
        decide (min_date ≤ request_start) && decide (max_date ≥ request_end)
      | _, _ => false

/-- The inner `while` loop of `find_missing_date_ranges`
(`while current_date <= request_end and current_date not in existing_dates:
current_date += timedelta(days=1)`), with a fuel argument for structural
termination.  The loop condition is kept verbatim; on aligned calls the fuel
`(request_end + 1 - current).toNat` never runs out before the condition fails. -/
def advanceMissingFuel (existing : List Int) (request_end : Int) : Nat → Int → Int
  | 0, current => current
  | n + 1, current =>
    if current ≤ request_end ∧ current ∉ existing then
      advanceMissingFuel existing request_end n (current + 1)
    else current

/-- The inner while loop of `find_missing_date_ranges`, started at `current`. -/
def advanceMissing (existing : List Int) (request_end current : Int) : Int :=
  advanceMissingFuel existing request_end (request_end + 1 - current).toNat current

/-- The outer `while current_date <= request_end:` loop of
`find_missing_date_ranges` (db_utils.py lines 121-131), fuel-structured like
`advanceMissingFuel`.  In the absent case it emits the run
`(missing_start, missing_end) = (current, advance - 1)` and resumes at the
first present-or-out-of-range date. -/
def missingLoopFuel (existing : List Int) (request_end : Int) :
    Nat → Int → List (Int × Int)
  | 0, _ => []
  | n + 1, current =>
    if current ≤ request_end then
      if current ∉ existing then
        (current, advanceMissing existing request_end current - 1) ::
          missingLoopFuel existing request_end n (advanceMissing existing request_end current)
      else
        missingLoopFuel existing request_end n (current + 1)
    else []

/-- `DatabaseManager.find_missing_date_ranges` (db_utils.py lines 99-133):
`existing_dates` is the set of stored dates for the pair within
`[request_start, request_end]`; if it is empty the whole range is returned,
otherwise the day-by-day scan collects the maximal runs of absent dates. -/
def find_missing_date_ranges (db : List ExchangeRateRow)
    (base_currency target_currency : String)
    (request_start request_end : Int) : List (Int × Int) :=
  let existing_dates :=
    (db.filter (fun x => decide (x.base_currency = base_currency ∧
        x.target_currency = target_currency ∧
        request_start ≤ x.date ∧ x.date ≤ request_end))).map (fun x => x.date)
  if existing_dates = [] then [(request_start, request_end)]
  else missingLoopFuel existing_dates request_end
    (request_end + 1 - request_start).toNat request_start

/-- The `existing_dates` query of `find_missing_date_ranges` as a standalone
definition (used to state lemmas about it). -/
def existingDates (db : List ExchangeRateRow) (base_currency target_currency : String)
    (request_start request_end : Int) : List Int :=
  (db.filter (fun x => decide (x.base_currency = base_currency ∧
      x.target_currency = target_currency ∧
      request_start ≤ x.date ∧ x.date ≤ request_end))).map (fun x => x.date)

/-- A date `d` is stored for `(b, t)` within `[s, e]`: membership in the
`existing_dates` query of `find_missing_date_ranges`. -/
def storedInRange (db : List ExchangeRateRow) (b t : String) (s e d : Int) : Prop :=
  ∃ x ∈ db, x.base_currency = b ∧ x.target_currency = t ∧ x.date = d ∧ s ≤ d ∧ d ≤ e

/-! ## exchange/views.py: the range merger -/

/-- Python's lexicographic order on `(start_date, end_date)` tuples, used by
`ranges.sort()`. -/
def rangeLE (p q : Int × Int) : Prop := p.1 < q.1 ∨ (p.1 = q.1 ∧ p.2 ≤ q.2)

instance : DecidableRel rangeLE := fun p q => by
  unfold rangeLE; exact inferInstance

instance : IsTotal (Int × Int) rangeLE :=
  ⟨fun a b => by unfold rangeLE; omega⟩

instance : IsTrans (Int × Int) rangeLE :=
  ⟨fun a b c hab hbc => by unfold rangeLE at *; omega⟩

/-- `ranges.sort()`: tuples are ordered lexicographically.  (The lexicographic
order is antisymmetric, so the sorted list is unique and any sorting algorithm
models Python's stable sort exactly.) -/
def pySort (l : List (Int × Int)) : List (Int × Int) := List.insertionSort rangeLE l

/-- The `for start, end in ranges[1:]` loop of `_merge_overlapping_ranges`
(views.py lines 30-36) with accumulator `(current_start, current_end)`:
extend when `start <= current_end + timedelta(days=1)`, otherwise close out
the current interval. -/
def mergeLoop (current_start current_end : Int) : List (Int × Int) → List (Int × Int)
  | [] => [(current_start, current_end)]
  | (s, e) :: rest =>
    if s ≤ current_end + 1 then mergeLoop current_start (max current_end e) rest
    else (current_start, current_end) :: mergeLoop s e rest

/-- `TimeSeriesView._merge_overlapping_ranges` (views.py lines 18-38), return
value only (source name `_merge_overlapping_ranges`).  The empty-input early
return and the `ranges[0]` split are the `match` on the sorted list. -/
def merge_overlapping_ranges (ranges : List (Int × Int)) : List (Int × Int) :=
  match pySort ranges with
  | [] => []
  | (s, e) :: rest => mergeLoop s e rest

/-- State-passing embedding of `_merge_overlapping_ranges`: `ranges.sort()`
mutates the caller's list, so the function is modelled as returning
(final state of the `ranges` argument, return value).  The empty early return
happens before the sort. -/
def merge_overlapping_ranges_state (ranges : List (Int × Int)) :
    List (Int × Int) × List (Int × Int) :=
  if ranges = [] then (ranges, [])
  else (pySort ranges,
    match pySort ranges with
    | [] => []
    | (s, e) :: rest => mergeLoop s e rest)

/-- The set of dates covered by a list of inclusive date intervals. -/
def coversDate (ranges : List (Int × Int)) (d : Int) : Prop :=
  ∃ p ∈ ranges, p.1 ≤ d ∧ d ≤ p.2

/-! ## exchange/db_utils.py: get_time_series_data -/

/-- The `db_data` response dict built by `get_time_series_data`
(db_utils.py lines 168-179): `base`, `start_date`, `end_date` (an ISO date
string, `none` modelling an empty string) and the date → target → rate map. -/
structure DbData where
  base : String
  start_date : Int
  end_date : Option Int
  rates : List (Int × List (String × ℚ))
deriving DecidableEq

/-- Return value of `get_time_series_data`: `None`, the data dict (fully
covered), or the `(data_dict, missing_ranges_dict)` tuple (partially covered). -/
inductive TSResult where
  | noData : TSResult
  | covered (d : DbData) : TSResult
  | withGaps (d : DbData) (missing_ranges : List (String × List (Int × Int))) : TSResult
deriving DecidableEq

/-- The `for rate in rates:` loop of `get_time_series_data` building
`db_data['rates']` (db_utils.py lines 175-179). -/
def buildRates (rows : List ExchangeRateRow) : List (Int × List (String × ℚ)) :=
  rows.foldl (fun acc r =>
    dictSet r.date (dictSet r.target_currency r.rate (dictGetD acc r.date [])) acc) []

/-- `DatabaseManager.get_time_series_data` (db_utils.py lines 136-213).
`end_date = none` is the empty string; `request_end` normalises it to `today`
(line 147) while the queryset only gets the `date__lte` filter when `end_date`
is given (lines 155-156).  The echoed `db_data['end_date']` is
`end_date if end_date else datetime.now().date().isoformat()` (line 171).
Python set iteration over `existing_targets` is modelled by `dedup` of the
targets in row order. -/
def get_time_series_data (db : List ExchangeRateRow) (base_currency : String)
    (target_currencies : List String) (start_date : Int) (end_date : Option Int)
    (today : Int) : TSResult :=
  let request_start := start_date
  let request_end := match end_date with | some d => d | none => today
  let query := db.filter (fun x =>
    decide (x.base_currency = base_currency) && decide (start_date ≤ x.date))
  let query2 := match end_date with
    | some d => query.filter (fun x => decide (x.date ≤ d))
    | none => query
  let query3 :=
    if target_currencies = [] then query2
    else query2.filter (fun x => target_currencies.contains x.target_currency)
  let rates := List.insertionSort (fun a b => a.date ≤ b.date) query3
  if rates = [] then TSResult.noData
  else
    let db_data : DbData :=
      { base := base_currency
        start_date := start_date
        end_date := match end_date with | some d => some d | none => some today
        rates := buildRates rates }
    if database_covers_range db base_currency target_currencies request_start request_end then
      TSResult.covered db_data
    else
      let missing_ranges :=
        if target_currencies = [] then
          ((rates.map (fun r => r.target_currency)).dedup).foldl (fun acc t =>
            let rs := find_missing_date_ranges db base_currency t request_start request_end
            if rs = [] then acc else dictSet t rs acc) []
        else
          target_currencies.foldl (fun acc t =>
            let rs := find_missing_date_ranges db base_currency t request_start request_end
            if rs = [] then acc else dictSet t rs acc) []
      TSResult.withGaps db_data missing_ranges

/-- The `end_date` metadata echoed by a `get_time_series_data` result
(`none` when the call returned `None`). -/
def TSResult.dataEnd : TSResult → Option (Option Int)
  | TSResult.noData => none
  | TSResult.covered d => some d.end_date
  | TSResult.withGaps d _ => some d.end_date

/-! ## exchange/views.py: the partial-fetch step of TimeSeriesView.get -/

/-- The in-progress `merged_data` dict of `_fetch_and_merge_partial_data`:
the public payload plus the internal `'_fetched_dates'` bookkeeping list. -/
structure MergedData where
  base : String
  start_date : Int
  end_date : Option Int
  rates : List (Int × List (String × ℚ))
  fetched_dates : List Int
deriving DecidableEq

/-- `TimeSeriesView._fetch_and_merge_api_data` (views.py lines 40-62):
on a successful response merge each returned date's rates into `merged_data`
(`dict.update`) and record newly fetched dates, returning `true`; a
`requests.RequestException` (`api _ = none`) is logged and returns `false`
with `merged_data` untouched. -/
def fetch_and_merge_api_data
    (api : Int × Int → Option (List (Int × List (String × ℚ))))
    (merged_data : MergedData) (range_start range_end : Int) : MergedData × Bool :=
  match api (range_start, range_end) with
  | some api_rates =>
    (api_rates.foldl (fun md p =>
      { md with
        rates := dictSet p.1
          (p.2.foldl (fun m q => dictSet q.1 q.2 m) (dictGetD md.rates p.1 [])) md.rates
        fetched_dates :=
          if p.1 ∈ md.fetched_dates then md.fetched_dates
          else md.fetched_dates ++ [p.1] }) merged_data,
     true)
  | none => (merged_data, false)

/-- `TimeSeriesView._fetch_and_merge_partial_data` (views.py lines 64-101,
source name `_fetch_and_merge_partial_data`): start from the database data,
then for each target merge its missing ranges and fetch each merged range —
the `Bool` returned by `_fetch_and_merge_api_data` is discarded.  With no
target currencies, fetch the full request range once.  The `except` branch
returning `None` only fires on unexpected exceptions, which the embedding has
none of, so the result is always `some`. -/
def fetch_and_merge_missing_data
    (api : String → Option String → Int × Int → Option (List (Int × List (String × ℚ))))
    (base_currency : String) (target_currencies : List String)
    (part_data : DbData) (missing_ranges : List (String × List (Int × Int)))
    (request_start request_end : Int) : Option MergedData :=
  let merged_data : MergedData :=
    { base := part_data.base
      start_date := part_data.start_date
      end_date := part_data.end_date
      rates := part_data.rates
      fetched_dates := [] }
  if target_currencies = [] then
    some (fetch_and_merge_api_data (api base_currency none) merged_data
      request_start request_end).1
  else
    some (missing_ranges.foldl (fun md tr =>
      if tr.2 = [] then md
      else (merge_overlapping_ranges tr.2).foldl
        (fun md2 r =>
          (fetch_and_merge_api_data (api base_currency (some tr.1)) md2 r.1 r.2).1) md)
      merged_data)

/-- Observable outcome of the partially-covered branch of `TimeSeriesView.get`
(views.py lines 154-192): either the cache is written and a response tagged
`'partial_fetch'` is returned (carrying `merged_data` with the internal
`'_fetched_dates'` key deleted), or control falls through to the full
fallback API fetch. -/
inductive GapFillOutcome where
  | returned (data : DbData) : GapFillOutcome
  | fallthrough : GapFillOutcome
deriving DecidableEq

/-- The partially-covered branch of `TimeSeriesView.get` (views.py lines
154-192): guarded by `if partial_data and partial_data.get('rates') and
missing_ranges:` (the data dict itself is a non-empty dict, hence always
truthy), it calls `_fetch_and_merge_partial_data` and, whenever the merge
returns a (necessarily truthy) dict, persists the fetched points, deletes
`'_fetched_dates'`, writes the cache and returns tagged `'partial_fetch'`.
Only a `None` merge result or a failed guard falls through to the full
fallback fetch. -/
def time_series_gap_fill_step
    (api : String → Option String → Int × Int → Option (List (Int × List (String × ℚ))))
    (base_currency : String) (target_currencies : List String)
    (part_data : DbData) (missing_ranges : List (String × List (Int × Int)))
    (request_start request_end : Int) : GapFillOutcome :=
  if part_data.rates ≠ [] ∧ missing_ranges ≠ [] then
    match fetch_and_merge_missing_data api base_currency target_currencies part_data
        missing_ranges request_start request_end with
    | some merged_data =>
      GapFillOutcome.returned
        { base := merged_data.base
          start_date := merged_data.start_date
          end_date := merged_data.end_date
          rates := merged_data.rates }
    | none => GapFillOutcome.fallthrough
  else GapFillOutcome.fallthrough

/-! ## Helper lemmas: coversDate -/

theorem coversDate_cons (p : Int × Int) (l : List (Int × Int)) (d : Int) :
    coversDate (p :: l) d ↔ (p.1 ≤ d ∧ d ≤ p.2) ∨ coversDate l d := by
  simp [coversDate]

theorem coversDate_of_perm {l1 l2 : List (Int × Int)} (h : l1.Perm l2) (d : Int) :
    coversDate l1 d ↔ coversDate l2 d := by
  unfold coversDate
  exact ⟨fun ⟨p, hp, h2⟩ => ⟨p, h.mem_iff.mp hp, h2⟩,
    fun ⟨p, hp, h2⟩ => ⟨p, h.mem_iff.mpr hp, h2⟩⟩

/-! ## Helper lemmas: the merge loop -/

theorem mergeLoop_covers (l : List (Int × Int)) :
    ∀ cs ce d : Int,
      List.Pairwise (fun p q : Int × Int => p.1 ≤ q.1) ((cs, ce) :: l) →
      (coversDate (mergeLoop cs ce l) d ↔ (cs ≤ d ∧ d ≤ ce) ∨ coversDate l d) := by
  induction l with
  | nil =>
    intro cs ce d _
    simp [mergeLoop, coversDate]
  | cons p rest ih =>
    obtain ⟨s, e⟩ := p
    intro cs ce d hp
    rw [List.pairwise_cons] at hp
    obtain ⟨hcs, hrest⟩ := hp
    have hcss : cs ≤ s := hcs (s, e) (List.mem_cons_self _ _)
    rw [List.pairwise_cons] at hrest
    obtain ⟨hs, hrest2⟩ := hrest
    by_cases hb : s ≤ ce + 1
    · rw [show mergeLoop cs ce ((s, e) :: rest) = mergeLoop cs (max ce e) rest from by
        simp [mergeLoop, hb]]
      rw [ih cs (max ce e) d (List.pairwise_cons.mpr
        ⟨fun q hq => hcs q (List.mem_cons_of_mem _ hq), hrest2⟩)]
      rw [coversDate_cons]
      constructor
      · rintro (⟨h1, h2⟩ | hc)
        · rcases le_or_lt d ce with hle | hlt
          · exact Or.inl ⟨h1, hle⟩
          · exact Or.inr (Or.inl ⟨by omega, by omega⟩)
        · exact Or.inr (Or.inr hc)
      · rintro (⟨h1, h2⟩ | ⟨h1, h2⟩ | hc)
        · exact Or.inl ⟨h1, by omega⟩
        · exact Or.inl ⟨by omega, by omega⟩
        · exact Or.inr hc
    · rw [show mergeLoop cs ce ((s, e) :: rest) = (cs, ce) :: mergeLoop s e rest from by
        simp [mergeLoop, hb]]
      rw [coversDate_cons, ih s e d (List.pairwise_cons.mpr ⟨hs, hrest2⟩), coversDate_cons]

theorem mergeLoop_spec (l : List (Int × Int)) :
    ∀ cs ce : Int, cs ≤ ce → (∀ p ∈ l, p.1 ≤ p.2) →
      List.Pairwise (fun p q : Int × Int => p.1 ≤ q.1) ((cs, ce) :: l) →
      ((∀ p ∈ mergeLoop cs ce l, cs ≤ p.1 ∧ p.1 ≤ p.2) ∧
       List.Pairwise (fun p q : Int × Int => p.2 + 1 < q.1) (mergeLoop cs ce l)) := by
  induction l with
  | nil =>
    intro cs ce hv _ _
    constructor
    · intro p hp
      simp [mergeLoop] at hp
      subst hp
      exact ⟨le_refl _, hv⟩
    · simp [mergeLoop]
  | cons p rest ih =>
    obtain ⟨s, e⟩ := p
    intro cs ce hv hval hp
    rw [List.pairwise_cons] at hp
    obtain ⟨hcs, hrest⟩ := hp
    have hcss : cs ≤ s := hcs (s, e) (List.mem_cons_self _ _)
    have hse : s ≤ e := hval (s, e) (List.mem_cons_self _ _)
    rw [List.pairwise_cons] at hrest
    obtain ⟨hs, hrest2⟩ := hrest
    by_cases hb : s ≤ ce + 1
    · rw [show mergeLoop cs ce ((s, e) :: rest) = mergeLoop cs (max ce e) rest from by
        simp [mergeLoop, hb]]
      exact ih cs (max ce e) (by omega)
        (fun q hq => hval q (List.mem_cons_of_mem _ hq))
        (List.pairwise_cons.mpr ⟨fun q hq => hcs q (List.mem_cons_of_mem _ hq), hrest2⟩)
    · rw [show mergeLoop cs ce ((s, e) :: rest) = (cs, ce) :: mergeLoop s e rest from by
        simp [mergeLoop, hb]]
      have hM := ih s e hse (fun q hq => hval q (List.mem_cons_of_mem _ hq))
        (List.pairwise_cons.mpr ⟨hs, hrest2⟩)
      constructor
      · intro q hq
        rcases List.mem_cons.mp hq with rfl | hq2
        · exact ⟨le_refl _, hv⟩
        · have := hM.1 q hq2
          exact ⟨by omega, this.2⟩
      · refine List.pairwise_cons.mpr ⟨?_, hM.2⟩
        intro q hq
        have := hM.1 q hq
        simp only []
        omega

theorem mergeLoop_of_chain (l : List (Int × Int)) :
    ∀ cs ce : Int,
      List.Chain' (fun p q : Int × Int => p.2 + 1 < q.1) ((cs, ce) :: l) →
      mergeLoop cs ce l = (cs, ce) :: l := by
  induction l with
  | nil => intro cs ce _; rfl
  | cons p rest ih =>
    obtain ⟨s, e⟩ := p
    intro cs ce h
    rw [List.chain'_cons] at h
    have h1 : ce + 1 < s := h.1
    have hb : ¬ s ≤ ce + 1 := by omega
    rw [show mergeLoop cs ce ((s, e) :: rest) = (cs, ce) :: mergeLoop s e rest from by
      simp [mergeLoop, hb]]
    rw [ih s e h.2]

/-! ## Helper lemmas: the top-level merger -/

theorem merge_overlapping_ranges_covers (R : List (Int × Int)) (d : Int) :
    coversDate (merge_overlapping_ranges R) d ↔ coversDate R d := by
  have hperm : (pySort R).Perm R := List.perm_insertionSort rangeLE R
  have hR : coversDate (pySort R) d ↔ coversDate R d := coversDate_of_perm hperm d
  have hfst : List.Pairwise (fun p q : Int × Int => p.1 ≤ q.1) (pySort R) :=
    (List.sorted_insertionSort rangeLE R).imp (fun hab => by unfold rangeLE at hab; omega)
  rw [← hR]
  unfold merge_overlapping_ranges
  rcases hE : pySort R with _ | ⟨⟨s, e⟩, rest⟩
  · simp [coversDate]
  · rw [hE] at hfst
    rw [mergeLoop_covers rest s e d hfst, coversDate_cons]

theorem merge_overlapping_ranges_spec (R : List (Int × Int))
    (hval : ∀ p ∈ R, p.1 ≤ p.2) :
    (∀ p ∈ merge_overlapping_ranges R, p.1 ≤ p.2) ∧
    List.Pairwise (fun p q : Int × Int => p.2 + 1 < q.1) (merge_overlapping_ranges R) := by
  have hperm : (pySort R).Perm R := List.perm_insertionSort rangeLE R
  have hvalS : ∀ p ∈ pySort R, p.1 ≤ p.2 := fun p hp => hval p (hperm.mem_iff.mp hp)
  have hfst : List.Pairwise (fun p q : Int × Int => p.1 ≤ q.1) (pySort R) :=
    (List.sorted_insertionSort rangeLE R).imp (fun hab => by unfold rangeLE at hab; omega)
  unfold merge_overlapping_ranges
  rcases hE : pySort R with _ | ⟨⟨s, e⟩, rest⟩
  · simp
  · rw [hE] at hvalS hfst
    have h := mergeLoop_spec rest s e (hvalS (s, e) (List.mem_cons_self _ _))
      (fun q hq => hvalS q (List.mem_cons_of_mem _ hq)) hfst
    exact ⟨fun p hp => (h.1 p hp).2, h.2⟩

theorem merge_overlapping_ranges_of_sorted_sep (L : List (Int × Int))
    (hs : List.Sorted rangeLE L)
    (hc : List.Chain' (fun p q : Int × Int => p.2 + 1 < q.1) L) :
    merge_overlapping_ranges L = L := by
  unfold merge_overlapping_ranges pySort
  rw [hs.insertionSort_eq]
  cases L with
  | nil => rfl
  | cons p rest =>
    obtain ⟨s, e⟩ := p
    exact mergeLoop_of_chain rest s e hc

/-! ## Claim C1 -/

/-- Claim C1: for every list `R` of date intervals (inclusive, `start ≤ end`),
`_merge_overlapping_ranges` covers exactly the same set of dates as `R`, its
output is sorted ascending by start, and no two output intervals overlap or
are adjacent (any later interval starts more than one day after any earlier
one ends). -/
theorem merge_ranges_correct (R : List (Int × Int)) (hval : ∀ p ∈ R, p.1 ≤ p.2) :
    (∀ d : Int, coversDate (merge_overlapping_ranges R) d ↔ coversDate R d) ∧
    List.Pairwise (fun p q : Int × Int => p.1 ≤ q.1) (merge_overlapping_ranges R) ∧
    List.Pairwise (fun p q : Int × Int => p.2 + 1 < q.1) (merge_overlapping_ranges R) := by
  obtain ⟨hv, hsep⟩ := merge_overlapping_ranges_spec R hval
  refine ⟨fun d => merge_overlapping_ranges_covers R d, ?_, hsep⟩
  refine List.Pairwise.imp_of_mem ?_ hsep
  intro a b ha hb hab
  have := hv a ha
  omega

/-- Witness for C1 at the spec §8 scenario input. -/
theorem merge_ranges_correct_witness :
    (∀ p ∈ ([(1, 3), (5, 5), (6, 8)] : List (Int × Int)), p.1 ≤ p.2) ∧
    ((∀ d : Int, coversDate (merge_overlapping_ranges [(1, 3), (5, 5), (6, 8)]) d ↔
        coversDate [(1, 3), (5, 5), (6, 8)] d) ∧
     List.Pairwise (fun p q : Int × Int => p.1 ≤ q.1)
       (merge_overlapping_ranges [(1, 3), (5, 5), (6, 8)]) ∧
     List.Pairwise (fun p q : Int × Int => p.2 + 1 < q.1)
       (merge_overlapping_ranges [(1, 3), (5, 5), (6, 8)])) :=
  ⟨by decide, merge_ranges_correct [(1, 3), (5, 5), (6, 8)] (by decide)⟩

/-! ## Claim C6 -/

/-- Claim C6: the range merger is idempotent on lists of date intervals
(`start ≤ end`): merging the result of merging `R` yields the same list as
merging `R` once. -/
theorem merge_idempotent (R : List (Int × Int)) (hval : ∀ p ∈ R, p.1 ≤ p.2) :
    merge_overlapping_ranges (merge_overlapping_ranges R) = merge_overlapping_ranges R := by
  obtain ⟨hv, hsep⟩ := merge_overlapping_ranges_spec R hval
  have hlex : List.Sorted rangeLE (merge_overlapping_ranges R) := by
    refine List.Pairwise.imp_of_mem ?_ hsep
    intro a b ha hb hab
    have := hv a ha
    unfold rangeLE
    omega
  exact merge_overlapping_ranges_of_sorted_sep _ hlex hsep.chain'

/-- Witness for C6 at the spec §8 scenario input. -/
theorem merge_idempotent_witness :
    (∀ p ∈ ([(5, 5), (1, 3), (6, 8)] : List (Int × Int)), p.1 ≤ p.2) ∧
    merge_overlapping_ranges (merge_overlapping_ranges [(5, 5), (1, 3), (6, 8)]) =
      merge_overlapping_ranges [(5, 5), (1, 3), (6, 8)] :=
  ⟨by decide, merge_idempotent [(5, 5), (1, 3), (6, 8)] (by decide)⟩

/-! ## Claim C9 -/

/-- Claim C9: for every non-empty argument list, `_merge_overlapping_ranges`
sorts the caller's list in place before merging (`ranges.sort()`): after the
call the argument has been permuted into ascending (lexicographic) order —
and in general is not left unchanged, as the concrete unsorted input
`[(1, 1), (0, 0)]` shows. -/
theorem merge_sorts_in_place (ranges : List (Int × Int)) (h : ranges ≠ []) :
    ((merge_overlapping_ranges_state ranges).1.Perm ranges ∧
     List.Sorted rangeLE (merge_overlapping_ranges_state ranges).1) ∧
    (merge_overlapping_ranges_state [(1, 1), (0, 0)]).1 ≠ [(1, 1), (0, 0)] := by
  unfold merge_overlapping_ranges_state
  rw [if_neg h]
  exact ⟨⟨List.perm_insertionSort rangeLE ranges, List.sorted_insertionSort rangeLE ranges⟩,
    by decide⟩

/-- Witness for C9 at a concrete non-empty input. -/
theorem merge_sorts_in_place_witness :
    (([(1, 1), (0, 0)] : List (Int × Int)) ≠ []) ∧
    (((merge_overlapping_ranges_state [(1, 1), (0, 0)]).1.Perm [(1, 1), (0, 0)] ∧
      List.Sorted rangeLE (merge_overlapping_ranges_state [(1, 1), (0, 0)]).1) ∧
     (merge_overlapping_ranges_state [(1, 1), (0, 0)]).1 ≠ [(1, 1), (0, 0)]) :=
  ⟨by decide, merge_sorts_in_place [(1, 1), (0, 0)] (by decide)⟩

/-! ## Helper lemmas: list minimum and maximum -/

theorem foldl_min_le_init (l : List Int) : ∀ a : Int, l.foldl min a ≤ a := by
  induction l with
  | nil => intro a; simp
  | cons x xs ih =>
    intro a
    rw [List.foldl_cons]
    exact le_trans (ih (min a x)) (min_le_left a x)

theorem foldl_min_le_mem (l : List Int) : ∀ a x : Int, x ∈ l → l.foldl min a ≤ x := by
  induction l with
  | nil => intro a x hx; simp at hx
  | cons y ys ih =>
    intro a x hx
    rw [List.foldl_cons]
    rcases List.mem_cons.mp hx with rfl | hx2
    · exact le_trans (foldl_min_le_init ys (min a x)) (min_le_right a x)
    · exact ih (min a y) x hx2

theorem min?_le_of_mem {l : List Int} {x : Int} (hx : x ∈ l) :
    ∃ m : Int, l.min? = some m ∧ m ≤ x := by
  cases l with
  | nil => simp at hx
  | cons a as =>
    refine ⟨as.foldl min a, rfl, ?_⟩
    rcases List.mem_cons.mp hx with rfl | h2
    · exact foldl_min_le_init as x
    · exact foldl_min_le_mem as a x h2

theorem foldl_max_ge_init (l : List Int) : ∀ a : Int, a ≤ l.foldl max a := by
  induction l with
  | nil => intro a; simp
  | cons x xs ih =>
    intro a
    rw [List.foldl_cons]
    exact le_trans (le_max_left a x) (ih (max a x))

theorem foldl_max_ge_mem (l : List Int) : ∀ a x : Int, x ∈ l → x ≤ l.foldl max a := by
  induction l with
  | nil => intro a x hx; simp at hx
  | cons y ys ih =>
    intro a x hx
    rw [List.foldl_cons]
    rcases List.mem_cons.mp hx with rfl | hx2
    · exact le_trans (le_max_right a x) (foldl_max_ge_init ys (max a x))
    · exact ih (max a y) x hx2

theorem max?_ge_of_mem {l : List Int} {x : Int} (hx : x ∈ l) :
    ∃ m : Int, l.max? = some m ∧ x ≤ m := by
  cases l with
  | nil => simp at hx
  | cons a as =>
    refine ⟨as.foldl max a, rfl, ?_⟩
    rcases List.mem_cons.mp hx with rfl | h2
    · exact foldl_max_ge_init as x
    · exact foldl_max_ge_mem as a x h2

/-! ## Helper lemmas: the inner while loop -/

theorem advanceMissingFuel_ge (existing : List Int) (request_end : Int) :
    ∀ (n : Nat) (current : Int), current ≤ advanceMissingFuel existing request_end n current := by
  intro n
  induction n with
  | zero => intro c; simp [advanceMissingFuel]
  | succ n ih =>
    intro c
    rw [advanceMissingFuel]
    split
    · have := ih (c + 1); omega
    · omega

theorem advanceMissingFuel_le (existing : List Int) (request_end : Int) :
    ∀ (n : Nat) (current : Int), current ≤ request_end + 1 →
      advanceMissingFuel existing request_end n current ≤ request_end + 1 := by
  intro n
  induction n with
  | zero => intro c hc; simpa [advanceMissingFuel] using hc
  | succ n ih =>
    intro c hc
    rw [advanceMissingFuel]
    split
    · rename_i h; exact ih (c + 1) (by omega)
    · exact hc

theorem advanceMissingFuel_stop (existing : List Int) (request_end : Int) :
    ∀ (n : Nat) (current : Int), (request_end + 1 - current).toNat ≤ n →
      (request_end < advanceMissingFuel existing request_end n current ∨
       advanceMissingFuel existing request_end n current ∈ existing) := by
  intro n
  induction n with
  | zero =>
    intro c hc
    left
    rw [advanceMissingFuel]
    omega
  | succ n ih =>
    intro c hc
    rw [advanceMissingFuel]
    split
    · rename_i h; exact ih (c + 1) (by omega)
    · rename_i h
      by_cases hce : c ≤ request_end
      · right
        by_contra hm
        exact h ⟨hce, hm⟩
      · left; omega

theorem advanceMissingFuel_absent (existing : List Int) (request_end : Int) :
    ∀ (n : Nat) (current d : Int), current ≤ d →
      d < advanceMissingFuel existing request_end n current → d ∉ existing := by
  intro n
  induction n with
  | zero =>
    intro c d h1 h2
    rw [advanceMissingFuel] at h2
    omega
  | succ n ih =>
    intro c d h1 h2
    rw [advanceMissingFuel] at h2
    split at h2
    · rename_i h
      rcases eq_or_lt_of_le h1 with rfl | hlt
      · exact h.2
      · exact ih (c + 1) d (by omega) h2
    · omega

theorem advanceMissing_ge (existing : List Int) (request_end current : Int) :
    current ≤ advanceMissing existing request_end current :=
  advanceMissingFuel_ge existing request_end _ current

theorem advanceMissing_le (existing : List Int) (request_end current : Int)
    (h : current ≤ request_end + 1) :
    advanceMissing existing request_end current ≤ request_end + 1 :=
  advanceMissingFuel_le existing request_end _ current h

theorem advanceMissing_stop (existing : List Int) (request_end current : Int) :
    request_end < advanceMissing existing request_end current ∨
    advanceMissing existing request_end current ∈ existing :=
  advanceMissingFuel_stop existing request_end _ current (le_refl _)

theorem advanceMissing_absent (existing : List Int) (request_end current d : Int)
    (h1 : current ≤ d) (h2 : d < advanceMissing existing request_end current) :
    d ∉ existing :=
  advanceMissingFuel_absent existing request_end _ current d h1 h2

theorem advanceMissing_gt (existing : List Int) (request_end current : Int)
    (h1 : current ≤ request_end) (h2 : current ∉ existing) :
    current < advanceMissing existing request_end current := by
  unfold advanceMissing
  have hc : (request_end + 1 - current).toNat = ((request_end + 1 - (current + 1)).toNat) + 1 := by
    omega
  rw [hc, advanceMissingFuel, if_pos ⟨h1, h2⟩]
  have := advanceMissingFuel_ge existing request_end (request_end + 1 - (current + 1)).toNat (current + 1)
  omega

/-! ## Helper lemmas: the outer while loop -/

theorem missingLoopFuel_all_present (existing : List Int) (request_end : Int) :
    ∀ (n : Nat) (current : Int), (request_end + 1 - current).toNat ≤ n →
      missingLoopFuel existing request_end n current = [] →
      ∀ d : Int, current ≤ d → d ≤ request_end → d ∈ existing := by
  intro n
  induction n with
  | zero => intro c hc _ d h1 h2; omega
  | succ n ih =>
    intro c hc hnil d h1 h2
    rw [missingLoopFuel] at hnil
    rw [if_pos (show c ≤ request_end by omega)] at hnil
    by_cases h4 : c ∈ existing
    · rw [if_neg (not_not_intro h4)] at hnil
      rcases eq_or_lt_of_le h1 with rfl | hlt
      · exact h4
      · exact ih (c + 1) (by omega) hnil d (by omega) h2
    · rw [if_pos h4] at hnil
      exact absurd hnil (by simp)

theorem missingLoopFuel_mem (existing : List Int) (request_end : Int) :
    ∀ (n : Nat) (current : Int), (request_end + 1 - current).toNat ≤ n →
      ∀ a b : Int,
      ((a, b) ∈ missingLoopFuel existing request_end n current ↔
        (current ≤ a ∧ a ≤ b ∧ b ≤ request_end ∧
         (∀ d : Int, a ≤ d → d ≤ b → d ∉ existing) ∧
         (a = current ∨ (a - 1) ∈ existing) ∧
         (b = request_end ∨ (b + 1) ∈ existing))) := by
  intro n
  induction n with
  | zero =>
    intro c hc a b
    rw [missingLoopFuel]
    simp only [List.not_mem_nil, false_iff]
    rintro ⟨h1, h2, h3, _⟩
    omega
  | succ n ih =>
    intro c hc a b
    rw [missingLoopFuel]
    by_cases h3 : c ≤ request_end
    · rw [if_pos h3]
      by_cases h4 : c ∈ existing
      · -- current date present: step to the next day
        rw [if_neg (not_not_intro h4)]
        rw [ih (c + 1) (by omega) a b]
        constructor
        · rintro ⟨h5, h6, h7, h8, h9, h10⟩
          refine ⟨by omega, h6, h7, h8, ?_, h10⟩
          rcases h9 with rfl | h9
          · right
            have h11 : c + 1 - 1 = c := by omega
            rw [h11]; exact h4
          · exact Or.inr h9
        · rintro ⟨h5, h6, h7, h8, h9, h10⟩
          have hane : a ≠ c := by
            rintro rfl
            exact (h8 _ (le_refl _) h6) h4
          refine ⟨by omega, h6, h7, h8, ?_, h10⟩
          rcases h9 with rfl | h9
          · exact absurd rfl hane
          · exact Or.inr h9
      · -- current date absent: emit the run starting here
        rw [if_pos h4]
        have hgt : c < advanceMissing existing request_end c :=
          advanceMissing_gt existing request_end c h3 h4
        have hle : advanceMissing existing request_end c ≤ request_end + 1 :=
          advanceMissing_le existing request_end c (by omega)
        have habs : ∀ d : Int, c ≤ d → d < advanceMissing existing request_end c →
            d ∉ existing := fun d hd1 hd2 => advanceMissing_absent existing request_end c d hd1 hd2
        have hstop := advanceMissing_stop existing request_end c
        rw [List.mem_cons]
        rw [ih (advanceMissing existing request_end c) (by omega) a b]
        constructor
        · rintro (heq | ⟨h5, h6, h7, h8, h9, h10⟩)
          · rw [Prod.mk.injEq] at heq
            obtain ⟨rfl, rfl⟩ := heq
            refine ⟨le_refl a, by omega, by omega, ?_, Or.inl rfl, ?_⟩
            · intro d hd1 hd2
              exact habs d hd1 (by omega)
            · rcases hstop with h | h
              · left; omega
              · right
                have heq2 : advanceMissing existing request_end a - 1 + 1 =
                    advanceMissing existing request_end a := by omega
                rw [heq2]; exact h
          · have hanx : a ≠ advanceMissing existing request_end c := by
              rintro rfl
              rcases hstop with h | h
              · omega
              · exact (h8 _ (le_refl _) h6) h
            refine ⟨by omega, h6, h7, h8, ?_, h10⟩
            right
            rcases h9 with rfl | h9
            · exact absurd rfl hanx
            · exact h9
        · rintro ⟨h5, h6, h7, h8, h9, h10⟩
          by_cases ha : a < advanceMissing existing request_end c
          · left
            have hac : a = c := by
              rcases h9 with rfl | h9
              · rfl
              · by_contra hne
                have h5s : c < a := by omega
                exact habs (a - 1) (by omega) (by omega) h9
            subst hac
            have hbnx : b = advanceMissing existing request_end a - 1 := by
              by_cases hb2 : b ≤ advanceMissing existing request_end a - 2
              · rcases h10 with rfl | h10
                · omega
                · exact absurd h10 (habs (b + 1) (by omega) (by omega))
              · have hblt : b < advanceMissing existing request_end a := by
                  by_contra hbge
                  push_neg at hbge
                  rcases hstop with h | h
                  · omega
                  · exact (h8 (advanceMissing existing request_end a) (by omega) (by omega)) h
                omega
            rw [hbnx]
          · right
            push_neg at ha
            refine ⟨ha, h6, h7, h8, ?_, h10⟩
            rcases h9 with rfl | h9
            · omega
            · exact Or.inr h9
    · rw [if_neg h3]
      simp only [List.not_mem_nil, false_iff]
      rintro ⟨h5, h6, h7, _⟩
      omega

theorem missingLoopFuel_pairwise (existing : List Int) (request_end : Int) :
    ∀ (n : Nat) (current : Int), (request_end + 1 - current).toNat ≤ n →
      List.Pairwise (fun p q : Int × Int => p.2 + 1 < q.1)
        (missingLoopFuel existing request_end n current) := by
  intro n
  induction n with
  | zero => intro c hc; rw [missingLoopFuel]; exact List.Pairwise.nil
  | succ n ih =>
    intro c hc
    rw [missingLoopFuel]
    by_cases h3 : c ≤ request_end
    · rw [if_pos h3]
      by_cases h4 : c ∈ existing
      · rw [if_neg (not_not_intro h4)]
        exact ih (c + 1) (by omega)
      · rw [if_pos h4]
        have hgt : c < advanceMissing existing request_end c :=
          advanceMissing_gt existing request_end c h3 h4
        refine List.pairwise_cons.mpr ⟨?_, ih _ (by omega)⟩
        intro q hq
        obtain ⟨qa, qb⟩ := q
        rw [missingLoopFuel_mem existing request_end n _ (by omega) qa qb] at hq
        obtain ⟨h5, h6, h7, h8, h9, _⟩ := hq
        have hstop := advanceMissing_stop existing request_end c
        have hqa : qa ≠ advanceMissing existing request_end c := by
          rintro rfl
          rcases hstop with h | h
          · omega
          · exact (h8 _ (le_refl _) h6) h
        simp only []
        omega
    · rw [if_neg h3]
      exact List.Pairwise.nil

/-! ## Helper lemmas: find_missing_date_ranges -/

theorem find_missing_eq (db : List ExchangeRateRow) (b t : String) (s e : Int) :
    find_missing_date_ranges db b t s e =
      (if existingDates db b t s e = [] then [(s, e)]
       else missingLoopFuel (existingDates db b t s e) e (e + 1 - s).toNat s) := rfl

theorem mem_existingDates (db : List ExchangeRateRow) (b t : String) (s e d : Int) :
    d ∈ existingDates db b t s e ↔ storedInRange db b t s e d := by
  unfold existingDates storedInRange
  simp only [List.mem_map, List.mem_filter, decide_eq_true_eq]
  constructor
  · rintro ⟨x, ⟨hx, h1, h2, h3, h4⟩, rfl⟩
    exact ⟨x, hx, h1, h2, rfl, h3, h4⟩
  · rintro ⟨x, hx, h1, h2, rfl, h3, h4⟩
    exact ⟨x, ⟨hx, h1, h2, h3, h4⟩, rfl⟩

theorem stored_mem_pairDates {db : List ExchangeRateRow} {b t : String} {s e d : Int}
    (hd : storedInRange db b t s e d) : d ∈ pairDates db b t := by
  unfold storedInRange at hd
  obtain ⟨x, hx, h1, h2, rfl, h3, h4⟩ := hd
  unfold pairDates
  simp only [List.mem_map, List.mem_filter, decide_eq_true_eq]
  exact ⟨x, ⟨hx, h1, h2⟩, rfl⟩

/-! ## Claim C4 -/

/-- Claim C4: for every base/target pair and interval `[s, e]` with `s ≤ e`,
if no dates are stored for the pair within the interval the gap finder
returns `[(s, e)]`; in general its output consists exactly of the maximal
runs of consecutive absent dates (a run `[a, b2]` is absent throughout, ends
maximal on both sides, and a single missing day gives `a = b2`), listed in
chronological order. -/
theorem find_missing_ranges_spec (db : List ExchangeRateRow) (b t : String) (s e : Int)
    (h : s ≤ e) :
    ((∀ d : Int, ¬ storedInRange db b t s e d) →
      find_missing_date_ranges db b t s e = [(s, e)]) ∧
    (∀ a b2 : Int, ((a, b2) ∈ find_missing_date_ranges db b t s e ↔
      (s ≤ a ∧ a ≤ b2 ∧ b2 ≤ e ∧
       (∀ d : Int, a ≤ d → d ≤ b2 → ¬ storedInRange db b t s e d) ∧
       (a = s ∨ storedInRange db b t s e (a - 1)) ∧
       (b2 = e ∨ storedInRange db b t s e (b2 + 1))))) ∧
    List.Pairwise (fun p q : Int × Int => p.2 + 1 < q.1)
      (find_missing_date_ranges db b t s e) := by
  by_cases hE : existingDates db b t s e = []
  · rw [find_missing_eq, if_pos hE]
    have hnost : ∀ d : Int, ¬ storedInRange db b t s e d := by
      intro d hd
      rw [← mem_existingDates] at hd
      rw [hE] at hd
      simp at hd
    refine ⟨fun _ => rfl, ?_, ?_⟩
    · intro a b2
      constructor
      · intro hmem
        simp only [List.mem_singleton] at hmem
        rw [Prod.mk.injEq] at hmem
        obtain ⟨rfl, rfl⟩ := hmem
        exact ⟨le_refl _, h, le_refl _, fun d _ _ => hnost d, Or.inl rfl, Or.inl rfl⟩
      · rintro ⟨h1, h2, h3, h4, h5, h6⟩
        have ha : a = s := by
          rcases h5 with rfl | h5
          · rfl
          · exact absurd h5 (hnost _)
        have hb : b2 = e := by
          rcases h6 with rfl | h6
          · rfl
          · exact absurd h6 (hnost _)
        simp [ha, hb]
    · simp
  · rw [find_missing_eq, if_neg hE]
    refine ⟨?_, ?_, missingLoopFuel_pairwise _ e _ s (le_refl _)⟩
    · intro hnost
      exfalso
      obtain ⟨d, hd⟩ := List.exists_mem_of_ne_nil _ hE
      exact hnost d ((mem_existingDates db b t s e d).mp hd)
    · intro a b2
      rw [missingLoopFuel_mem (existingDates db b t s e) e (e + 1 - s).toNat s
        (le_refl _) a b2]
      simp only [mem_existingDates]

/-- Witness for C4: dates 1, 2, 5 stored, request `[1, 7]`. -/
theorem find_missing_ranges_spec_witness :
    ((1 : Int) ≤ 7) ∧
    List.Pairwise (fun p q : Int × Int => p.2 + 1 < q.1)
      (find_missing_date_ranges
        [⟨"USD", "EUR", 1, 1, 0, "frankfurter"⟩,
         ⟨"USD", "EUR", 1, 2, 0, "frankfurter"⟩,
         ⟨"USD", "EUR", 1, 5, 0, "frankfurter"⟩] "USD" "EUR" 1 7) ∧
    ((3, 4) ∈ find_missing_date_ranges
        [⟨"USD", "EUR", 1, 1, 0, "frankfurter"⟩,
         ⟨"USD", "EUR", 1, 2, 0, "frankfurter"⟩,
         ⟨"USD", "EUR", 1, 5, 0, "frankfurter"⟩] "USD" "EUR" 1 7 ↔
      ((1 : Int) ≤ 3 ∧ (3 : Int) ≤ 4 ∧ (4 : Int) ≤ 7 ∧
       (∀ d : Int, 3 ≤ d → d ≤ 4 → ¬ storedInRange
          [⟨"USD", "EUR", 1, 1, 0, "frankfurter"⟩,
           ⟨"USD", "EUR", 1, 2, 0, "frankfurter"⟩,
           ⟨"USD", "EUR", 1, 5, 0, "frankfurter"⟩] "USD" "EUR" 1 7 d) ∧
       ((3 : Int) = 1 ∨ storedInRange
          [⟨"USD", "EUR", 1, 1, 0, "frankfurter"⟩,
           ⟨"USD", "EUR", 1, 2, 0, "frankfurter"⟩,
           ⟨"USD", "EUR", 1, 5, 0, "frankfurter"⟩] "USD" "EUR" 1 7 (3 - 1)) ∧
       ((4 : Int) = 7 ∨ storedInRange
          [⟨"USD", "EUR", 1, 1, 0, "frankfurter"⟩,
           ⟨"USD", "EUR", 1, 2, 0, "frankfurter"⟩,
           ⟨"USD", "EUR", 1, 5, 0, "frankfurter"⟩] "USD" "EUR" 1 7 (4 + 1)))) :=
  ⟨by decide,
   (find_missing_ranges_spec _ "USD" "EUR" 1 7 (by decide)).2.2,
   (find_missing_ranges_spec _ "USD" "EUR" 1 7 (by decide)).2.1 3 4⟩

/-! ## Claim C3 -/

/-- Claim C3: gap/coverage duality for a single target and `s ≤ e`: if the
gap finder returns no missing ranges then the coverage checker reports the
interval covered, and if coverage is false the gap finder returns a
non-empty list. -/
theorem gap_coverage_duality (db : List ExchangeRateRow) (b t : String) (s e : Int)
    (h : s ≤ e) :
    (find_missing_date_ranges db b t s e = [] →
      database_covers_range db b [t] s e = true) ∧
    (database_covers_range db b [t] s e = false →
      find_missing_date_ranges db b t s e ≠ []) := by
  have main : find_missing_date_ranges db b t s e = [] →
      database_covers_range db b [t] s e = true := by
    intro hnil
    rw [find_missing_eq] at hnil
    by_cases hE : existingDates db b t s e = []
    · rw [if_pos hE] at hnil
      exact absurd hnil (by simp)
    · rw [if_neg hE] at hnil
      have hall := missingLoopFuel_all_present (existingDates db b t s e) e
        (e + 1 - s).toNat s (le_refl _) hnil
      have hs_in : storedInRange db b t s e s :=
        (mem_existingDates db b t s e s).mp (hall s (le_refl s) h)
      have he_in : storedInRange db b t s e e :=
        (mem_existingDates db b t s e e).mp (hall e h (le_refl e))
      obtain ⟨mn, hmn, hmns⟩ := min?_le_of_mem (stored_mem_pairDates hs_in)
      obtain ⟨mx, hmx, hmxe⟩ := max?_ge_of_mem (stored_mem_pairDates he_in)
      unfold database_covers_range
      rw [if_neg (by simp : ¬ ([t] : List String) = [])]
      simp only [List.all_cons, List.all_nil, Bool.and_true]
      rw [hmn, hmx]
      simp only [Bool.and_eq_true, decide_eq_true_eq]
      exact ⟨hmns, hmxe⟩
  refine ⟨main, fun hfalse hnil => ?_⟩
  rw [main hnil] at hfalse
  simp at hfalse

/-- Witness for C3: dates 1, 2 stored, request `[1, 2]` (no gaps, covered). -/
theorem gap_coverage_duality_witness :
    ((1 : Int) ≤ 2) ∧
    ((find_missing_date_ranges
        [⟨"USD", "EUR", 1, 1, 0, "frankfurter"⟩,
         ⟨"USD", "EUR", 1, 2, 0, "frankfurter"⟩] "USD" "EUR" 1 2 = [] →
      database_covers_range
        [⟨"USD", "EUR", 1, 1, 0, "frankfurter"⟩,
         ⟨"USD", "EUR", 1, 2, 0, "frankfurter"⟩] "USD" ["EUR"] 1 2 = true) ∧
     (database_covers_range
        [⟨"USD", "EUR", 1, 1, 0, "frankfurter"⟩,
         ⟨"USD", "EUR", 1, 2, 0, "frankfurter"⟩] "USD" ["EUR"] 1 2 = false →
      find_missing_date_ranges
        [⟨"USD", "EUR", 1, 1, 0, "frankfurter"⟩,
         ⟨"USD", "EUR", 1, 2, 0, "frankfurter"⟩] "USD" "EUR" 1 2 ≠ [])) :=
  ⟨by decide, gap_coverage_duality _ "USD" "EUR" 1 2 (by decide)⟩

/-! ## Claim C10 -/

/-- Claim C10: called with `request_start > request_end`, the gap finder would
return `[]` if some date were stored in the (empty) query range — a vacuous
case, since nothing can be stored in an empty range — and with nothing stored
it returns the single pair `(request_start, request_end)` whose start exceeds
its end, violating the `start ≤ end` date-interval invariant. -/
theorem degenerate_range_spec (db : List ExchangeRateRow) (b t : String) (s e : Int)
    (h : e < s) :
    ((∃ d : Int, storedInRange db b t s e d) →
      find_missing_date_ranges db b t s e = []) ∧
    ((∀ d : Int, ¬ storedInRange db b t s e d) →
      find_missing_date_ranges db b t s e = [(s, e)] ∧ ¬ s ≤ e) := by
  constructor
  · rintro ⟨d, hd⟩
    unfold storedInRange at hd
    obtain ⟨x, hx, h1, h2, h3, h4, h5⟩ := hd
    omega
  · intro hno
    refine ⟨?_, by omega⟩
    have hfil : existingDates db b t s e = [] := by
      unfold existingDates
      rw [List.map_eq_nil_iff, List.filter_eq_nil_iff]
      intro x hx
      simp only [decide_eq_true_eq]
      rintro ⟨-, -, h3, h4⟩
      omega
    rw [find_missing_eq, if_pos hfil]

/-- Witness for C10 at the concrete degenerate request `[7, 3]`. -/
theorem degenerate_range_spec_witness :
    ((3 : Int) < 7) ∧
    (((∃ d : Int, storedInRange
        [⟨"USD", "EUR", 1, 1, 0, "frankfurter"⟩] "USD" "EUR" 7 3 d) →
      find_missing_date_ranges
        [⟨"USD", "EUR", 1, 1, 0, "frankfurter"⟩] "USD" "EUR" 7 3 = []) ∧
     ((∀ d : Int, ¬ storedInRange
        [⟨"USD", "EUR", 1, 1, 0, "frankfurter"⟩] "USD" "EUR" 7 3 d) →
      find_missing_date_ranges
        [⟨"USD", "EUR", 1, 1, 0, "frankfurter"⟩] "USD" "EUR" 7 3 = [(7, 3)] ∧
        ¬ (7 : Int) ≤ 3)) :=
  ⟨by decide, degenerate_range_spec _ "USD" "EUR" 7 3 (by decide)⟩

/-! ## Claim C5 -/

/-- Claim C5: for a non-empty target set, the coverage checker returns true
iff for every target both the minimum and maximum stored date for the pair
exist and satisfy `min ≤ request_start` and `max ≥ request_end`; in
particular a store holding only the two endpoint dates 0 and 10 of the
request `[0, 10]` — with a hole in the middle — is still reported covered. -/
theorem covers_iff_minmax (db : List ExchangeRateRow) (b : String)
    (targets : List String) (s e : Int) (h : targets ≠ []) :
    (database_covers_range db b targets s e = true ↔
      ∀ t ∈ targets, ∃ mn mx : Int, (pairDates db b t).min? = some mn ∧
        (pairDates db b t).max? = some mx ∧ mn ≤ s ∧ e ≤ mx) ∧
    database_covers_range
      [⟨"EUR", "USD", 1, 0, 0, "frankfurter"⟩, ⟨"EUR", "USD", 1, 10, 0, "frankfurter"⟩]
      "EUR" ["USD"] 0 10 = true := by
  refine ⟨?_, by decide⟩
  unfold database_covers_range
  rw [if_neg h, List.all_eq_true]
  constructor
  · intro hall t ht
    have h2 := hall t ht
    rcases hmin : (pairDates db b t).min? with _ | mn
    · rw [hmin] at h2; simp at h2
    · rcases hmax : (pairDates db b t).max? with _ | mx
      · rw [hmin, hmax] at h2; simp at h2
      · rw [hmin, hmax] at h2
        simp only [Bool.and_eq_true, decide_eq_true_eq] at h2
        exact ⟨mn, mx, rfl, rfl, h2.1, h2.2⟩
  · intro hall t ht
    obtain ⟨mn, mx, h1, h2, h3, h4⟩ := hall t ht
    rw [h1, h2]
    simp only [Bool.and_eq_true, decide_eq_true_eq]
    exact ⟨h3, h4⟩

/-- Witness for C5 at a concrete non-empty target set. -/
theorem covers_iff_minmax_witness :
    ((["USD"] : List String) ≠ []) ∧
    ((database_covers_range
        [⟨"EUR", "USD", 1, 0, 0, "frankfurter"⟩,
         ⟨"EUR", "USD", 1, 10, 0, "frankfurter"⟩] "EUR" ["USD"] 0 10 = true ↔
      ∀ t ∈ (["USD"] : List String), ∃ mn mx : Int,
        (pairDates [⟨"EUR", "USD", 1, 0, 0, "frankfurter"⟩,
          ⟨"EUR", "USD", 1, 10, 0, "frankfurter"⟩] "EUR" t).min? = some mn ∧
        (pairDates [⟨"EUR", "USD", 1, 0, 0, "frankfurter"⟩,
          ⟨"EUR", "USD", 1, 10, 0, "frankfurter"⟩] "EUR" t).max? = some mx ∧
        mn ≤ 0 ∧ 10 ≤ mx) ∧
     database_covers_range
      [⟨"EUR", "USD", 1, 0, 0, "frankfurter"⟩, ⟨"EUR", "USD", 1, 10, 0, "frankfurter"⟩]
      "EUR" ["USD"] 0 10 = true) :=
  ⟨by decide, covers_iff_minmax
    [⟨"EUR", "USD", 1, 0, 0, "frankfurter"⟩, ⟨"EUR", "USD", 1, 10, 0, "frankfurter"⟩]
    "EUR" ["USD"] 0 10 (by decide)⟩

/-! ## Helper lemmas: save_exchange_rate -/

theorem keyMatch_iff_rateKey (b t : String) (d : Int) (x : ExchangeRateRow) :
    keyMatch b t d x = true ↔ rateKey x = (b, t, d) := by
  unfold keyMatch rateKey
  simp [Prod.ext_iff]

theorem updateFirst_map_rateKey (p : ExchangeRateRow → Bool)
    (f : ExchangeRateRow → ExchangeRateRow) (hf : ∀ x, rateKey (f x) = rateKey x) :
    ∀ db : List ExchangeRateRow, (updateFirst p f db).map rateKey = db.map rateKey := by
  intro db
  induction db with
  | nil => rfl
  | cons x xs ih =>
    rw [updateFirst]
    split
    · simp [hf]
    · simp [ih]

theorem updateFirst_filter_key (b t : String) (d : Int) (r : ℚ) (src : String) (now : Int) :
    ∀ db : List ExchangeRateRow, KeyUnique db →
      (∃ x ∈ db, keyMatch b t d x = true) →
      (updateFirst (keyMatch b t d)
        (fun x => { x with rate := r, timestamp := now, source := src }) db).filter
          (keyMatch b t d) = [⟨b, t, r, d, now, src⟩] := by
  intro db
  induction db with
  | nil => rintro _ ⟨x, hx, _⟩; simp at hx
  | cons y ys ih =>
    intro hinv hex
    rw [updateFirst]
    unfold KeyUnique at hinv
    rw [List.map_cons, List.pairwise_cons] at hinv
    by_cases hy : keyMatch b t d y = true
    · rw [if_pos hy]
      have hkey : rateKey y = (b, t, d) := (keyMatch_iff_rateKey b t d y).mp hy
      have hupd : ({ y with rate := r, timestamp := now, source := src } :
          ExchangeRateRow) = ⟨b, t, r, d, now, src⟩ := by
        obtain ⟨yb, yt, yr, yd, yts, ysrc⟩ := y
        unfold rateKey at hkey
        simp only [Prod.mk.injEq] at hkey
        obtain ⟨h1, h2, h3⟩ := hkey
        simp [h1, h2, h3]
      rw [hupd]
      rw [List.filter_cons]
      rw [if_pos (by rw [keyMatch_iff_rateKey]; rfl)]
      have hrest : ys.filter (keyMatch b t d) = [] := by
        rw [List.filter_eq_nil_iff]
        intro z hz
        intro hzk
        have hne := hinv.1 (rateKey z) (List.mem_map_of_mem rateKey hz)
        rw [hkey, (keyMatch_iff_rateKey b t d z).mp hzk] at hne
        exact hne rfl
      rw [hrest]
    · rw [if_neg hy]
      rw [List.filter_cons, if_neg (by simpa using hy)]
      apply ih hinv.2
      obtain ⟨x, hx, hxk⟩ := hex
      rcases List.mem_cons.mp hx with rfl | hx2
      · exact absurd hxk hy
      · exact ⟨x, hx2, hxk⟩

theorem save_exchange_rate_single (db : List ExchangeRateRow) (hinv : KeyUnique db)
    (b t : String) (r : ℚ) (d : Int) (src : String) (now : Int) :
    (save_exchange_rate db b t r d src now).filter (keyMatch b t d) =
      [⟨b, t, r, d, now, src⟩] ∧
    KeyUnique (save_exchange_rate db b t r d src now) := by
  rcases hf : db.find? (keyMatch b t d) with _ | w
  · have happ : save_exchange_rate db b t r d src now = db ++ [⟨b, t, r, d, now, src⟩] := by
      unfold save_exchange_rate
      rw [hf]
    have hnone := List.find?_eq_none.mp hf
    rw [happ]
    constructor
    · rw [List.filter_append]
      rw [List.filter_eq_nil_iff.mpr hnone]
      simp [keyMatch]
    · unfold KeyUnique
      rw [List.map_append, List.pairwise_append]
      refine ⟨hinv, by simp, ?_⟩
      intro k hk k2 hk2
      simp only [List.map_cons, List.map_nil, List.mem_singleton] at hk2
      obtain ⟨z, hz, rfl⟩ := List.mem_map.mp hk
      subst hk2
      intro hcontra
      exact hnone z hz (by rw [keyMatch_iff_rateKey]; exact hcontra)
  · have hupd : save_exchange_rate db b t r d src now =
        updateFirst (keyMatch b t d)
          (fun x => { x with rate := r, timestamp := now, source := src }) db := by
      unfold save_exchange_rate
      rw [hf]
    have hW : w ∈ db := List.mem_of_find?_eq_some hf
    have hWk : keyMatch b t d w = true := List.find?_some hf
    rw [hupd]
    constructor
    · exact updateFirst_filter_key b t d r src now db hinv ⟨w, hW, hWk⟩
    · unfold KeyUnique
      rw [updateFirst_map_rateKey (keyMatch b t d)
        (fun x => { x with rate := r, timestamp := now, source := src }) (fun x => rfl) db]
      exact hinv

/-! ## Claim C7 -/

/-- Claim C7: saving a rate for the same key twice (with possibly different
values) leaves exactly one stored row for that key, holding the value,
source and fetch timestamp of the later save; and every save preserves the
at-most-one-row-per-key invariant. -/
theorem upsert_convergence (db : List ExchangeRateRow) (b t : String) (r1 r2 : ℚ)
    (d : Int) (s1 s2 : String) (n1 n2 : Int) (hinv : KeyUnique db) :
    KeyUnique (save_exchange_rate db b t r1 d s1 n1) ∧
    KeyUnique (save_exchange_rate (save_exchange_rate db b t r1 d s1 n1) b t r2 d s2 n2) ∧
    (save_exchange_rate (save_exchange_rate db b t r1 d s1 n1) b t r2 d s2 n2).filter
      (keyMatch b t d) = [⟨b, t, r2, d, n2, s2⟩] := by
  obtain ⟨h1, h2⟩ := save_exchange_rate_single db hinv b t r1 d s1 n1
  obtain ⟨h3, h4⟩ := save_exchange_rate_single _ h2 b t r2 d s2 n2
  exact ⟨h2, h4, h3⟩

/-- Witness for C7: two saves of the same key into an initially empty store. -/
theorem upsert_convergence_witness :
    KeyUnique ([] : List ExchangeRateRow) ∧
    (KeyUnique (save_exchange_rate [] "USD" "EUR" 2 1 "frankfurter" 9) ∧
     KeyUnique (save_exchange_rate (save_exchange_rate [] "USD" "EUR" 2 1 "frankfurter" 9)
       "USD" "EUR" 3 1 "ecb" 11) ∧
     (save_exchange_rate (save_exchange_rate [] "USD" "EUR" 2 1 "frankfurter" 9)
       "USD" "EUR" 3 1 "ecb" 11).filter (keyMatch "USD" "EUR" 1) =
       [⟨"USD", "EUR", 3, 1, 11, "ecb"⟩]) :=
  ⟨List.Pairwise.nil, upsert_convergence [] "USD" "EUR" 2 3 1 "frankfurter" "ecb" 9 11
    List.Pairwise.nil⟩
/-! ## Claim C8 -/

/-- Claim C8 (amended): with `end_date` unspecified, `get_time_series_data`
normalises the end to `today` for coverage and gap computation — for a store
with no dates beyond `today` the result is identical to an explicit
`end_date = today` request — but the echoed `end_date` metadata substitutes
today's date (it is `some today`, never left unspecified). -/
theorem open_end_spec (db : List ExchangeRateRow) (b : String) (targets : List String)
    (s today : Int) (hdb : ∀ x ∈ db, x.date ≤ today) :
    get_time_series_data db b targets s none today =
      get_time_series_data db b targets s (some today) today ∧
    (TSResult.dataEnd (get_time_series_data db b targets s none today) = none ∨
     TSResult.dataEnd (get_time_series_data db b targets s none today) =
       some (some today)) := by
  have hq : (db.filter (fun x =>
      decide (x.base_currency = b) && decide (s ≤ x.date))).filter
        (fun x => decide (x.date ≤ today)) =
      db.filter (fun x => decide (x.base_currency = b) && decide (s ≤ x.date)) := by
    rw [List.filter_eq_self]
    intro x hx
    simp only [decide_eq_true_eq]
    exact hdb x (List.mem_filter.mp hx).1
  constructor
  · simp only [get_time_series_data]
    rw [hq]
  · simp only [get_time_series_data]
    repeat' split
    all_goals simp [TSResult.dataEnd]

/-- Counterexample for C8 as stated: with `end_date` unspecified (the store
holds one EUR/USD row at day 0, request start 0, today = 5), the echoed
`end_date` metadata of the returned data dict is today's date `some 5`, not
the unspecified `none` the claim asserts is preserved. -/
theorem open_end_echo_counterexample :
    TSResult.dataEnd (get_time_series_data
      [⟨"EUR", "USD", 1, 0, 0, "frankfurter"⟩] "EUR" ["USD"] 0 none 5) =
      some (some 5) ∧
    some (some (5 : Int)) ≠ some (none : Option Int) := by
  constructor
  · decide
  · simp

/-- Witness for the amended C8 at a concrete store respecting `today`. -/
theorem open_end_spec_witness :
    (∀ x ∈ ([⟨"EUR", "USD", 1, 0, 0, "frankfurter"⟩] : List ExchangeRateRow),
      x.date ≤ 5) ∧
    (get_time_series_data [⟨"EUR", "USD", 1, 0, 0, "frankfurter"⟩] "EUR" ["USD"] 0 none 5 =
      get_time_series_data [⟨"EUR", "USD", 1, 0, 0, "frankfurter"⟩] "EUR" ["USD"] 0
        (some 5) 5 ∧
     (TSResult.dataEnd (get_time_series_data
        [⟨"EUR", "USD", 1, 0, 0, "frankfurter"⟩] "EUR" ["USD"] 0 none 5) = none ∨
      TSResult.dataEnd (get_time_series_data
        [⟨"EUR", "USD", 1, 0, 0, "frankfurter"⟩] "EUR" ["USD"] 0 none 5) =
        some (some 5))) :=
  ⟨by decide, open_end_spec [⟨"EUR", "USD", 1, 0, 0, "frankfurter"⟩] "EUR" ["USD"] 0 5
    (by decide)⟩

/-! ## Claim C2 -/

/-- Counterexample for C2 as stated: a partial-fetch step in which every
fetch attempt fails (the API oracle always returns a request failure) still
returns a response tagged `partial_fetch` carrying only the database data —
it does not fall through to the full fallback fetch. -/
theorem gap_fill_all_fail_counterexample :
    time_series_gap_fill_step (fun _ _ _ => none) "USD" ["EUR"]
      ⟨"USD", 1, some 7, [(1, [("EUR", 1)])]⟩ [("EUR", [(3, 4), (6, 7)])] 1 7 =
    GapFillOutcome.returned ⟨"USD", 1, some 7, [(1, [("EUR", 1)])]⟩ := by decide

/-- Claim C2 (amended): whenever the partial-fetch guard holds (non-empty
database rates and a non-empty missing-ranges map), the assembler writes the
cache and returns a response tagged `partial_fetch` for EVERY fetch outcome —
in particular both when at least one merged-interval fetch succeeds and when
every fetch attempt fails; it never falls through to the full fallback fetch
from this branch. -/
theorem gap_fill_always_returns
    (api : String → Option String → Int × Int → Option (List (Int × List (String × ℚ))))
    (b : String) (targets : List String) (pd : DbData)
    (mr : List (String × List (Int × Int))) (rs re : Int)
    (hrates : pd.rates ≠ []) (hmr : mr ≠ []) :
    ∃ d : DbData, time_series_gap_fill_step api b targets pd mr rs re =
      GapFillOutcome.returned d := by
  unfold time_series_gap_fill_step fetch_and_merge_missing_data
  rw [if_pos ⟨hrates, hmr⟩]
  by_cases ht : targets = []
  · rw [if_pos ht]
    exact ⟨_, rfl⟩
  · rw [if_neg ht]
    exact ⟨_, rfl⟩

/-- Witness for the amended C2: all fetches failing, guard satisfied. -/
theorem gap_fill_always_returns_witness :
    (([(1, [("EUR", (1 : ℚ))])] : List (Int × List (String × ℚ))) ≠ []) ∧
    (([("EUR", [(3, 4), (6, 7)])] : List (String × List (Int × Int))) ≠ []) ∧
    ∃ d : DbData, time_series_gap_fill_step (fun _ _ _ => none) "USD" ["EUR"]
      ⟨"USD", 1, some 7, [(1, [("EUR", 1)])]⟩ [("EUR", [(3, 4), (6, 7)])] 1 7 =
      GapFillOutcome.returned d :=
  ⟨by decide, by decide,
   gap_fill_always_returns (fun _ _ _ => none) "USD" ["EUR"]
     ⟨"USD", 1, some 7, [(1, [("EUR", 1)])]⟩ [("EUR", [(3, 4), (6, 7)])] 1 7
     (by decide) (by decide)⟩
